import Mathlib

/-!
Shallow embedding of the seam-carving program (Image.cpp, SeamCarver.cpp,
main.cpp) and proofs about it.  Grids are lists of rows; machine ints are
modelled by unbounded `Int`; all reads go through `getD`-style accessors
with the default value a read of an in-bounds cell never sees.
-/

namespace SeamCarving

/-- A grid (vector of rows), as in `std::vector<std::vector<T>>`. -/
abbrev Grid (α : Type) := List (List α)

/-- Read entry `(i, j)` of a grid, with default `d` out of bounds. -/
def gget (g : Grid α) (d : α) (i j : Nat) : α := (g.getD i []).getD j d

/-- The grid has exactly `h` rows, each of length `w`. -/
def Rect (g : Grid α) (h w : Nat) : Prop :=
  g.length = h ∧ ∀ row ∈ g, row.length = w

instance (g : Grid α) (h w : Nat) : Decidable (Rect g h w) := by
  unfold Rect; infer_instance

/-- The image data model of `Image.hpp`: dimensions, a format flag and the
grayscale / color pixel stores (only the one selected by `isColor` is
meaningful, as in the C++ class). -/
@[ext]
structure Image where
  width : Nat
  height : Nat
  isColor : Bool
  gray : Grid Int
  color : Grid (Int × Int × Int)
deriving DecidableEq

/-- Function `Image::grayValue`: the pixel for P2 data, the truncating integer average
of the three channels for P3 data. -/
def Image.grayValue (img : Image) (r c : Nat) : Int :=
  if img.isColor then
    (((gget img.color (0, 0, 0) r c).1 + (gget img.color (0, 0, 0) r c).2.1 +
        (gget img.color (0, 0, 0) r c).2.2).tdiv 3)
  else gget img.gray 0 r c

/-- The energy of pixel `(i, j)` in `SeamCarver::computeEnergy`: the sum of
absolute gray differences with the up / down / left / right neighbors that
exist. -/
def energyAt (img : Image) (i j : Nat) : Int :=
  let v := img.grayValue i j
  let s1 : Int := 0
  let s2 := if 0 < i then s1 + |v - img.grayValue (i - 1) j| else s1
  let s3 := if i < img.height - 1 then s2 + |v - img.grayValue (i + 1) j| else s2
  let s4 := if 0 < j then s3 + |v - img.grayValue i (j - 1)| else s3
  if j < img.width - 1 then s4 + |v - img.grayValue i (j + 1)| else s4

/-- Function `SeamCarver::computeEnergy`: the `height × width` energy map. -/
def computeEnergy (img : Image) : Grid Int :=
  (List.range img.height).map fun i => (List.range img.width).map fun j => energyAt img i j

/-- Transpose an `h × w` grid, as the loops of `Image::transpose` do:
`tmp[j][i] = g[i][j]` for `i < h`, `j < w`. -/
def transposeG (h w : Nat) (g : Grid α) (d : α) : Grid α :=
  (List.range w).map fun j => (List.range h).map fun i => gget g d i j

/-- Function `Image::transpose`: transpose the active pixel store and swap the
dimension fields. -/
def Image.transpose (img : Image) : Image :=
  { width := img.height, height := img.width, isColor := img.isColor,
    gray := if img.isColor then img.gray else transposeG img.height img.width img.gray 0,
    color := if img.isColor then transposeG img.height img.width img.color (0, 0, 0)
      else img.color }

/-- The row-by-row erase loop of `Image::removeSeam`: row `i` loses its
element at index `seam[i]`. -/
def removeSeamG (h : Nat) (g : Grid α) (s : List Nat) : Grid α :=
  (List.range h).map fun i => (g.getD i []).eraseIdx (s.getD i 0)

/-- Function `Image::removeSeam`: erase `seam[i]` from every row of the active store
and decrement the width. -/
def Image.removeSeam (img : Image) (s : List Nat) : Image :=
  { img with
    gray := if img.isColor then img.gray else removeSeamG img.height img.gray s,
    color := if img.isColor then removeSeamG img.height img.color s else img.color,
    width := img.width - 1 }

/-- Reading the energy map entry `(i, j)` (default `0` out of bounds). -/
def EAt (g : Grid Int) (i j : Nat) : Int := gget g 0 i j

/-- The inner minimum of the DP recurrence in `SeamCarver::findVerticalSeam`:
`best = M[i-1][j]`, refined by `M[i-1][j-1]` when `j > 0` and by
`M[i-1][j+1]` when `j < w-1`. -/
def below (f : Nat → Int) (w j : Nat) : Int :=
  let b1 := f j
  let b2 := if 0 < j then min b1 (f (j - 1)) else b1
  if j < w - 1 then min b2 (f (j + 1)) else b2

/-- The cost matrix `M` of `SeamCarver::findVerticalSeam`, row by row:
`M[0][j] = energy[0][j]`, `M[i+1][j] = energy[i+1][j] + below (M i) w j`. -/
def cost (E : Nat → Nat → Int) (w : Nat) : Nat → Nat → Int
  | 0 => fun j => E 0 j
  | i + 1 => fun j => E (i + 1) j + below (cost E w i) w j

/-- The strict-improvement scan `if f j < f best then best := j` over a list
of candidate indices, starting from `init`: keeps the earliest minimum. -/
def lminF (f : Nat → Int) (l : List Nat) (init : Nat) : Nat :=
  l.foldl (fun mj j => if f j < f mj then j else mj) init

/-- The `minj` loop of `SeamCarver::findVerticalSeam`: scan `j = 1 .. w-1`,
replacing the best index only on a strictly smaller value. -/
def minIdxFrom (f : Nat → Int) (w : Nat) : Nat :=
  lminF f (List.range' 1 (w - 1)) 0

/-- One backtracking step of `SeamCarver::findVerticalSeam`: scan the window
`[max 0 (prev-1), min (w-1) (prev+1)]` left to right, replacing only on a
strictly smaller value. -/
def backStep (f : Nat → Int) (w prev : Nat) : Nat :=
  let start := prev - 1
  let stop := min (w - 1) (prev + 1)
  lminF f (List.range' (start + 1) (stop - start)) start

/-- The seam entry `k` rows above the bottom, as traced by
`SeamCarver::findVerticalSeam`: `seamIdx 0` is the bottom entry `seam[h-1]`,
and `seamIdx (k+1)` is `seam[h-2-k]`. -/
def seamIdx (E : Nat → Nat → Int) (w h : Nat) : Nat → Nat
  | 0 => minIdxFrom (cost E w (h - 1)) w
  | k + 1 => backStep (cost E w (h - 2 - k)) w (seamIdx E w h k)

/-- Function `SeamCarver::findVerticalSeam` (identical in SeamCarver.cpp and
SeamCarver.hpp): DP over the cost matrix, then backtracking. -/
def findVerticalSeam (g : Grid Int) : List Nat :=
  let h := g.length
  let w := (g.getD 0 []).length
  (List.range h).map fun i => seamIdx (EAt g) w h (h - 1 - i)

/-- A valid seam for an `h × w` map: one column per row, in bounds, and
consecutive entries differ by at most one. -/
def validSeam (h w : Nat) (s : List Nat) : Prop :=
  s.length = h ∧ (∀ i, i < h → s.getD i 0 < w) ∧
    ∀ i, i < h - 1 → s.getD i 0 ≤ s.getD (i + 1) 0 + 1 ∧ s.getD (i + 1) 0 ≤ s.getD i 0 + 1

instance (h w : Nat) (s : List Nat) : Decidable (validSeam h w s) := by
  unfold validSeam; infer_instance

/-- The total energy of a seam: `∑ i, energy[i][seam[i]]`. -/
def seamCost (g : Grid Int) (s : List Nat) : Int :=
  ∑ i ∈ Finset.range g.length, EAt g i (s.getD i 0)

/-- The spec's reading of a backtracking step: check the clamped candidates
`prev-1`, `prev`, `prev+1` in that order, replacing the current best only on
a strictly smaller cost value. -/
def scanSpec (f : Nat → Int) (w prev : Nat) : Nat :=
  let c1 := prev - 1
  let c2 := min (w - 1) prev
  let c3 := min (w - 1) (prev + 1)
  let b2 := if f c2 < f c1 then c2 else c1
  if f c3 < f b2 then c3 else b2

/-- Function `SeamCarver::removeVerticalSeams`: `count` rounds of compute-energy /
find-seam / remove-seam. -/
def removeVerticalSeams : Nat → Image → Image
  | 0, img => img
  | n + 1, img => removeVerticalSeams n (img.removeSeam (findVerticalSeam (computeEnergy img)))

/-- Function `SeamCarver::removeHorizontalSeams`: `count` rounds of
transpose / remove one vertical seam / transpose. -/
def removeHorizontalSeams : Nat → Image → Image
  | 0, img => img
  | m + 1, img =>
    removeHorizontalSeams m (Image.transpose (removeVerticalSeams 1 (Image.transpose img)))

/-- The inner minimum of the DP recurrence in main.cpp's
`SeamCarver::findMinVerticalSeam` (guard written `j+1 < w` there). -/
def below2 (f : Nat → Int) (w j : Nat) : Int :=
  let b1 := f j
  let b2 := if 0 < j then min b1 (f (j - 1)) else b1
  if j + 1 < w then min b2 (f (j + 1)) else b2

/-- The cost matrix of main.cpp's `SeamCarver::findMinVerticalSeam`. -/
def costM (E : Nat → Nat → Int) (w : Nat) : Nat → Nat → Int
  | 0 => fun j => E 0 j
  | i + 1 => fun j => E (i + 1) j + below2 (costM E w i) w j

/-- Loop of `std::min_element` over a row, as an index: first strictly smaller
element replaces the current best. -/
def minElementIdx (l : List Int) : Nat :=
  lminF (fun j => l.getD j 0) (List.range' 1 (l.length - 1)) 0

/-- The last row of main.cpp's cost matrix, materialised. -/
def lastRowM (g : Grid Int) (w h : Nat) : List Int :=
  (List.range w).map fun j => costM (EAt g) w (h - 1) j

/-- One backtracking step of main.cpp's `findMinVerticalSeam`: take `prev`,
move to `prev-1` on `M[i][prev-1] <= best`, then to `prev+1` on a strictly
smaller value. -/
def mainStep (f : Nat → Int) (w prev : Nat) : Nat :=
  let best0 := f prev
  let st := if 0 < prev ∧ f (prev - 1) ≤ best0 then (f (prev - 1), prev - 1) else (best0, prev)
  if prev + 1 < w ∧ f (prev + 1) < st.1 then prev + 1 else st.2

/-- The seam entry `k` rows above the bottom for main.cpp's variant. -/
def seamIdxMain (g : Grid Int) (w h : Nat) : Nat → Nat
  | 0 => minElementIdx (lastRowM g w h)
  | k + 1 => mainStep (costM (EAt g) w (h - 2 - k)) w (seamIdxMain g w h k)

/-- main.cpp's `SeamCarver::findMinVerticalSeam`. -/
def findMinVerticalSeam (g : Grid Int) : List Nat :=
  let h := g.length
  let w := (g.getD 0 []).length
  (List.range h).map fun i => seamIdxMain g w h (h - 1 - i)

/-- Checked read of a grid entry: `none` exactly on an out-of-bounds index. -/
def get2? (g : Grid α) (i j : Nat) : Option α := (g.get? i).bind fun row => row.get? j

/-- Checked form of `below`, with every cost-row read going through `f`. -/
def below? (f : Nat → Option Int) (w j : Nat) : Option Int :=
  (f j).bind fun b1 =>
    (if 0 < j then (f (j - 1)).map fun x => min b1 x else some b1).bind fun b2 =>
      if j < w - 1 then (f (j + 1)).map fun x => min b2 x else some b2

/-- Checked cost matrix: every energy read is bounds-checked. -/
def cost? (g : Grid Int) (w : Nat) : Nat → Nat → Option Int
  | 0 => fun j => get2? g 0 j
  | i + 1 => fun j =>
    (get2? g (i + 1) j).bind fun e =>
      (below? (cost? g w i) w j).map fun b => e + b

/-- Checked strict-improvement scan: both compared reads are bounds-checked
at every iteration, as in the C++ loops. -/
def lminF? (f : Nat → Option Int) (l : List Nat) (init : Nat) : Option Nat :=
  l.foldlM (fun mj j => (f j).bind fun a => (f mj).map fun b => if a < b then j else mj) init

/-- The materialised cost matrix of `SeamCarver::findVerticalSeam`. -/
def Mmat (g : Grid Int) (w h : Nat) : Grid Int :=
  (List.range h).map fun i => (List.range w).map fun j => cost (EAt g) w i j

/-- Checked materialisation of the cost matrix. -/
def MmatChecked (g : Grid Int) (w h : Nat) : Option (Grid Int) :=
  (List.range h).mapM fun i => (List.range w).mapM fun j => cost? g w i j

/-- Checked seam trace: every read of the cost matrix `M` is bounds-checked. -/
def seamIdx? (M : Grid Int) (w h : Nat) : Nat → Option Nat
  | 0 => lminF? (fun j => get2? M (h - 1) j) (List.range' 1 (w - 1)) 0
  | k + 1 =>
    (seamIdx? M w h k).bind fun prev =>
      lminF? (fun j => get2? M (h - 2 - k) j)
        (List.range' (prev - 1 + 1) (min (w - 1) (prev + 1) - (prev - 1))) (prev - 1)

/-- Checked `findVerticalSeam`: `none` as soon as any read of the energy map
or of the cost matrix is out of bounds. -/
def findVerticalSeamChecked (g : Grid Int) : Option (List Nat) :=
  let h := g.length
  let w := (g.getD 0 []).length
  (MmatChecked g w h).bind fun M =>
    (List.range h).mapM fun i => seamIdx? M w h (h - 1 - i)

/-- Well-formedness of the active pixel store: it is `height × width`. -/
def WfActive (img : Image) : Prop :=
  if img.isColor then Rect img.color img.height img.width
  else Rect img.gray img.height img.width

instance (img : Image) : Decidable (WfActive img) := by
  unfold WfActive; infer_instance

/-! ### Basic access lemmas -/

theorem getD_map_range (f : Nat → α) (n i : Nat) (d : α) (hi : i < n) :
    ((List.range n).map f).getD i d = f i := by
  have hlen : i < ((List.range n).map f).length := by simpa using hi
  rw [List.getD_eq_getElem _ _ hlen, List.getElem_map, List.getElem_range]

theorem mem_range'_bounds : ∀ (n a k : Nat), k ∈ List.range' a n → a ≤ k ∧ k < a + n := by
  intro n
  induction n with
  | zero => intro a k hk; simp at hk
  | succ n ih =>
    intro a k hk
    rw [List.range'_succ] at hk
    rcases List.mem_cons.mp hk with hk | hk
    · omega
    · have := ih (a + 1) k hk; omega

/-! ### The strict-improvement scan keeps the earliest minimum -/

theorem lminF_cons (f : Nat → Int) (a : Nat) (l : List Nat) (init : Nat) :
    lminF f (a :: l) init = lminF f l (if f a < f init then a else init) := rfl

theorem lminF_spec (f : Nat → Int) :
    ∀ (n a init : Nat), init < a →
      (lminF f (List.range' a n) init = init ∨
        (a ≤ lminF f (List.range' a n) init ∧ lminF f (List.range' a n) init < a + n)) ∧
      f (lminF f (List.range' a n) init) ≤ f init ∧
      (∀ k, a ≤ k → k < a + n → f (lminF f (List.range' a n) init) ≤ f k) ∧
      (lminF f (List.range' a n) init ≠ init → f (lminF f (List.range' a n) init) < f init) ∧
      (∀ k, a ≤ k → k < lminF f (List.range' a n) init → f (lminF f (List.range' a n) init) < f k) := by
  intro n
  induction n with
  | zero =>
    intro a init hlt
    have he : lminF f (List.range' a 0) init = init := rfl
    rw [he]
    refine ⟨Or.inl rfl, le_refl _, ?_, ?_, ?_⟩
    · intro k hk1 hk2; omega
    · intro hne; exact absurd rfl hne
    · intro k hk1 hk2; omega
  | succ n ih =>
    intro a init hlt
    rw [List.range'_succ, lminF_cons]
    by_cases hfa : f a < f init
    · rw [if_pos hfa]
      obtain ⟨h1, h2, h3, h4, h5⟩ := ih (a + 1) a (by omega)
      refine ⟨?_, ?_, ?_, ?_, ?_⟩
      · rcases h1 with h1 | h1 <;> [right; right] <;> omega
      · exact le_of_lt (lt_of_le_of_lt h2 hfa)
      · intro k hk1 hk2
        rcases Nat.eq_or_lt_of_le hk1 with he | hgt
        · rw [← he]; exact h2
        · exact h3 k hgt (by omega)
      · intro _; exact lt_of_le_of_lt h2 hfa
      · intro k hk1 hk2
        rcases Nat.eq_or_lt_of_le hk1 with he | hgt
        · rw [← he]
          apply h4
          omega
        · exact h5 k hgt hk2
    · rw [if_neg hfa]
      have hge : f init ≤ f a := le_of_not_lt hfa
      obtain ⟨h1, h2, h3, h4, h5⟩ := ih (a + 1) init (by omega)
      refine ⟨?_, ?_, ?_, ?_, ?_⟩
      · rcases h1 with h1 | h1 <;> [left; right] <;> omega
      · exact h2
      · intro k hk1 hk2
        rcases Nat.eq_or_lt_of_le hk1 with he | hgt
        · rw [← he]; exact le_trans h2 hge
        · exact h3 k hgt (by omega)
      · exact h4
      · intro k hk1 hk2
        rcases Nat.eq_or_lt_of_le hk1 with he | hgt
        · rw [← he]
          refine lt_of_lt_of_le (h4 ?_) hge
          omega
        · exact h5 k hgt hk2

/-! ### The two argmin loops of `findVerticalSeam` -/

theorem minIdxFrom_lt (f : Nat → Int) (w : Nat) (hw : 1 ≤ w) : minIdxFrom f w < w := by
  have h := lminF_spec f (w - 1) 1 0 (by omega)
  unfold minIdxFrom
  rcases h.1 with h1 | h1 <;> omega

theorem minIdxFrom_min (f : Nat → Int) (w : Nat) (j : Nat) (hj : j < w) :
    f (minIdxFrom f w) ≤ f j := by
  have h := lminF_spec f (w - 1) 1 0 (by omega)
  unfold minIdxFrom
  rcases Nat.eq_zero_or_pos j with hj0 | hj1
  · rw [hj0]; exact h.2.1
  · exact h.2.2.1 j hj1 (by omega)

theorem minIdxFrom_leftmost (f : Nat → Int) (w : Nat) (j : Nat) (hj : j < minIdxFrom f w) :
    f (minIdxFrom f w) < f j := by
  have h := lminF_spec f (w - 1) 1 0 (by omega)
  unfold minIdxFrom at *
  rcases Nat.eq_zero_or_pos j with hj0 | hj1
  · rw [hj0]
    apply h.2.2.2.1
    omega
  · exact h.2.2.2.2 j hj1 hj

theorem backStep_bounds (f : Nat → Int) (w prev : Nat) (hw : 1 ≤ w) (hp : prev < w) :
    prev - 1 ≤ backStep f w prev ∧ backStep f w prev ≤ min (w - 1) (prev + 1) := by
  have h := lminF_spec f (min (w - 1) (prev + 1) - (prev - 1)) (prev - 1 + 1) (prev - 1) (by omega)
  simp only [backStep]
  rcases h.1 with h1 | h1 <;> omega

theorem backStep_min (f : Nat → Int) (w prev : Nat) (hw : 1 ≤ w) (hp : prev < w)
    (k : Nat) (hk1 : prev - 1 ≤ k) (hk2 : k ≤ min (w - 1) (prev + 1)) :
    f (backStep f w prev) ≤ f k := by
  have h := lminF_spec f (min (w - 1) (prev + 1) - (prev - 1)) (prev - 1 + 1) (prev - 1) (by omega)
  simp only [backStep]
  rcases Nat.eq_or_lt_of_le hk1 with he | hlt
  · rw [← he]; exact h.2.1
  · exact h.2.2.1 k hlt (by omega)

theorem backStep_leftmost (f : Nat → Int) (w prev : Nat) (hw : 1 ≤ w) (hp : prev < w)
    (k : Nat) (hk1 : prev - 1 ≤ k) (hk2 : k < backStep f w prev) :
    f (backStep f w prev) < f k := by
  have h := lminF_spec f (min (w - 1) (prev + 1) - (prev - 1)) (prev - 1 + 1) (prev - 1) (by omega)
  simp only [backStep] at hk2 ⊢
  rcases Nat.eq_or_lt_of_le hk1 with he | hlt
  · rw [← he]
    apply h.2.2.2.1
    omega
  · exact h.2.2.2.2 k hlt hk2

/-! ### The DP minimum over a window -/

theorem below_le_window (f : Nat → Int) (w prev : Nat) (hp : prev < w)
    (k : Nat) (hk1 : prev - 1 ≤ k) (hk2 : k ≤ min (w - 1) (prev + 1)) :
    below f w prev ≤ f k := by
  have hcase : k = prev ∨ (0 < prev ∧ k = prev - 1) ∨ (prev < w - 1 ∧ k = prev + 1) := by omega
  simp only [below]
  rcases hcase with hk | ⟨h0, hk⟩ | ⟨h0, hk⟩ <;> rw [hk] <;> split_ifs <;>
    simp_all [min_le_iff, le_refl]

theorem le_below (f : Nat → Int) (w prev : Nat) (x : Int)
    (h1 : x ≤ f prev) (h2 : 0 < prev → x ≤ f (prev - 1)) (h3 : prev < w - 1 → x ≤ f (prev + 1)) :
    x ≤ below f w prev := by
  simp only [below]
  split_ifs with ha hb hb
  · exact le_min (le_min h1 (h2 hb)) (h3 ha)
  · exact le_min h1 (h3 ha)
  · exact le_min h1 (h2 hb)
  · exact h1

theorem backStep_val (f : Nat → Int) (w prev : Nat) (hw : 1 ≤ w) (hp : prev < w) :
    f (backStep f w prev) = below f w prev := by
  have hb := backStep_bounds f w prev hw hp
  apply le_antisymm
  · apply le_below
    · exact backStep_min f w prev hw hp prev (by omega) (by omega)
    · intro h0; exact backStep_min f w prev hw hp (prev - 1) (by omega) (by omega)
    · intro h1; exact backStep_min f w prev hw hp (prev + 1) (by omega) (by omega)
  · exact below_le_window f w prev hp (backStep f w prev) hb.1 hb.2

/-! ### The traced seam: bounds, adjacency, telescoping cost -/

theorem seamIdx_lt (E : Nat → Nat → Int) (w h : Nat) (hw : 1 ≤ w) :
    ∀ k, seamIdx E w h k < w := by
  intro k
  induction k with
  | zero => exact minIdxFrom_lt _ w hw
  | succ k ih =>
    have hb := backStep_bounds (cost E w (h - 2 - k)) w (seamIdx E w h k) hw ih
    simp only [seamIdx]
    omega

theorem seamIdx_adj (E : Nat → Nat → Int) (w h : Nat) (hw : 1 ≤ w) (k : Nat) :
    seamIdx E w h k ≤ seamIdx E w h (k + 1) + 1 ∧
      seamIdx E w h (k + 1) ≤ seamIdx E w h k + 1 := by
  have hb := backStep_bounds (cost E w (h - 2 - k)) w (seamIdx E w h k) hw
    (seamIdx_lt E w h hw k)
  simp only [seamIdx]
  omega

theorem seam_telescope (E : Nat → Nat → Int) (w h : Nat) (hw : 1 ≤ w) :
    ∀ k, k ≤ h - 1 →
      cost E w (h - 1 - k) (seamIdx E w h k) +
          ∑ x ∈ Finset.range k, E (h - 1 - x) (seamIdx E w h x) =
        cost E w (h - 1) (seamIdx E w h 0) := by
  intro k
  induction k with
  | zero => intro _; simp
  | succ k ih =>
    intro hk
    have hprev : seamIdx E w h k < w := seamIdx_lt E w h hw k
    have hval := backStep_val (cost E w (h - 2 - k)) w (seamIdx E w h k) hw hprev
    have hrow : h - 1 - k = (h - 2 - k) + 1 := by omega
    have hstep : seamIdx E w h (k + 1) = backStep (cost E w (h - 2 - k)) w (seamIdx E w h k) :=
      rfl
    have hk1 : h - 1 - (k + 1) = h - 2 - k := by omega
    have hcost : cost E w (h - 1 - k) (seamIdx E w h k) =
        E (h - 1 - k) (seamIdx E w h k) + below (cost E w (h - 2 - k)) w (seamIdx E w h k) := by
      rw [hrow]; rfl
    rw [Finset.sum_range_succ, hk1, hstep, hval, ← ih (by omega), hcost]
    ring

/-! ### Any valid seam costs at least the DP value of its last entry -/

theorem cost_le_prefix (E : Nat → Nat → Int) (w h : Nat) (s : List Nat)
    (hb : ∀ i, i < h → s.getD i 0 < w)
    (hadj : ∀ i, i < h - 1 →
      s.getD i 0 ≤ s.getD (i + 1) 0 + 1 ∧ s.getD (i + 1) 0 ≤ s.getD i 0 + 1) :
    ∀ i, i < h → cost E w i (s.getD i 0) ≤ ∑ x ∈ Finset.range (i + 1), E x (s.getD x 0) := by
  intro i
  induction i with
  | zero =>
    intro _
    simp [cost]
  | succ i ih =>
    intro hi
    have hb1 := hb (i + 1) hi
    have hb0 := hb i (by omega)
    have hadji := hadj i (by omega)
    have hbelow : below (cost E w i) w (s.getD (i + 1) 0) ≤ cost E w i (s.getD i 0) := by
      apply below_le_window _ w _ hb1 _ ?_ ?_ <;> omega
    have hsum : ∑ x ∈ Finset.range (i + 1 + 1), E x (s.getD x 0) =
        ∑ x ∈ Finset.range (i + 1), E x (s.getD x 0) + E (i + 1) (s.getD (i + 1) 0) :=
      Finset.sum_range_succ _ _
    have hih := ih (by omega)
    have hcost : cost E w (i + 1) (s.getD (i + 1) 0) =
        E (i + 1) (s.getD (i + 1) 0) + below (cost E w i) w (s.getD (i + 1) 0) := rfl
    rw [hcost, hsum]
    linarith

/-! ### `findVerticalSeam` as a list -/

theorem rect_width (g : Grid α) (h w : Nat) (hh : 1 ≤ h) (hr : Rect g h w) :
    (g.getD 0 []).length = w := by
  obtain ⟨hlen, hrow⟩ := hr
  have h0 : 0 < g.length := by omega
  rw [List.getD_eq_getElem _ _ h0]
  exact hrow _ (List.getElem_mem h0)

theorem findVerticalSeam_length (g : Grid Int) : (findVerticalSeam g).length = g.length := by
  simp [findVerticalSeam]

theorem findVerticalSeam_getD (g : Grid Int) (i : Nat) (hi : i < g.length) :
    (findVerticalSeam g).getD i 0 =
      seamIdx (EAt g) (g.getD 0 []).length g.length (g.length - 1 - i) :=
  getD_map_range _ _ _ _ hi

theorem seamCost_eq_dp (g : Grid Int) (h w : Nat) (hh : 1 ≤ h) (hw : 1 ≤ w)
    (hrect : Rect g h w) :
    seamCost g (findVerticalSeam g) = cost (EAt g) w (h - 1) (seamIdx (EAt g) w h 0) := by
  have hlen := hrect.1
  have hwidth := rect_width g h w hh hrect
  have hstep1 : seamCost g (findVerticalSeam g) =
      ∑ i ∈ Finset.range h, EAt g i (seamIdx (EAt g) w h (h - 1 - i)) := by
    unfold seamCost
    rw [hlen]
    apply Finset.sum_congr rfl
    intro i hi
    have hi2 : i < g.length := by
      have := Finset.mem_range.mp hi; omega
    rw [findVerticalSeam_getD g i hi2, hwidth, hlen]
  have hstep2 : ∑ i ∈ Finset.range h, EAt g i (seamIdx (EAt g) w h (h - 1 - i)) =
      ∑ k ∈ Finset.range h, EAt g (h - 1 - k) (seamIdx (EAt g) w h k) := by
    rw [← Finset.sum_range_reflect (fun k => EAt g (h - 1 - k) (seamIdx (EAt g) w h k)) h]
    apply Finset.sum_congr rfl
    intro i hi
    have hii : h - 1 - (h - 1 - i) = i := by
      have := Finset.mem_range.mp hi; omega
    rw [hii]
  have htel := seam_telescope (EAt g) w h hw (h - 1) (le_refl _)
  have hzero : h - 1 - (h - 1) = 0 := by omega
  rw [hzero] at htel
  have hcost0 : cost (EAt g) w 0 (seamIdx (EAt g) w h (h - 1)) =
      EAt g 0 (seamIdx (EAt g) w h (h - 1)) := rfl
  rw [hcost0] at htel
  have hh1 : Finset.range h = Finset.range ((h - 1) + 1) := by
    congr 1
    omega
  have hsplit := Finset.sum_range_succ
    (fun k => EAt g (h - 1 - k) (seamIdx (EAt g) w h k)) (h - 1)
  simp only at hsplit
  rw [hstep1, hstep2, hh1, hsplit, hzero]
  linarith

/-- C2: for every non-empty rectangular energy map of height `h` and width `w`,
`findVerticalSeam` returns exactly `h` column indices, all in `[0, w)`, with
consecutive entries differing by at most one. -/
theorem C2_seam_shape (g : Grid Int) (h w : Nat) (hh : 1 ≤ h) (hw : 1 ≤ w)
    (hrect : Rect g h w) : validSeam h w (findVerticalSeam g) := by
  have hwidth := rect_width g h w hh hrect
  have hlen := hrect.1
  refine ⟨by rw [findVerticalSeam_length, hlen], ?_, ?_⟩
  · intro i hi
    rw [findVerticalSeam_getD g i (by omega), hwidth, hlen]
    exact seamIdx_lt _ w h hw _
  · intro i hi
    rw [findVerticalSeam_getD g i (by omega), findVerticalSeam_getD g (i + 1) (by omega),
      hwidth, hlen]
    have hk : h - 1 - i = (h - 1 - (i + 1)) + 1 := by omega
    rw [hk]
    have hadj := seamIdx_adj (EAt g) w h hw (h - 1 - (i + 1))
    omega

/-- A sample energy map used by the witnesses. -/
def egGrid : Grid Int := [[5, 0, 5, 0], [5, 5, 0, 5], [5, 0, 5, 5]]

theorem C2_seam_shape_witness : validSeam 3 4 (findVerticalSeam egGrid) :=
  C2_seam_shape egGrid 3 4 (by decide) (by decide) (by decide)

/-- C1: for every non-empty rectangular energy map of non-negative integers, the
seam returned by `findVerticalSeam` has total energy at most the total energy of
every valid seam (one in-bounds column per row, consecutive columns differing by
at most one). -/
theorem C1_seam_optimal (g : Grid Int) (h w : Nat) (hh : 1 ≤ h) (hw : 1 ≤ w)
    (hrect : Rect g h w) (hnonneg : ∀ i, i < h → ∀ j, j < w → 0 ≤ EAt g i j)
    (s : List Nat) (hs : validSeam h w s) :
    seamCost g (findVerticalSeam g) ≤ seamCost g s := by
  obtain ⟨hslen, hsb, hsadj⟩ := hs
  have hkey := seamCost_eq_dp g h w hh hw hrect
  have hlast : s.getD (h - 1) 0 < w := hsb _ (by omega)
  have hmin0 : seamIdx (EAt g) w h 0 = minIdxFrom (cost (EAt g) w (h - 1)) w := rfl
  have hmin : cost (EAt g) w (h - 1) (seamIdx (EAt g) w h 0) ≤
      cost (EAt g) w (h - 1) (s.getD (h - 1) 0) := by
    rw [hmin0]
    exact minIdxFrom_min _ w _ hlast
  have hle := cost_le_prefix (EAt g) w h s hsb hsadj (h - 1) (by omega)
  have hsc : seamCost g s = ∑ x ∈ Finset.range ((h - 1) + 1), EAt g x (s.getD x 0) := by
    unfold seamCost
    rw [hrect.1, show (h - 1) + 1 = h from by omega]
  rw [hkey, hsc]
  exact le_trans hmin hle

theorem C1_seam_optimal_witness :
    seamCost egGrid (findVerticalSeam egGrid) ≤ seamCost egGrid [3, 3, 3] :=
  C1_seam_optimal egGrid 3 4 (by decide) (by decide) (by decide) (by decide) [3, 3, 3]
    (by decide)

/-! ### The backtracking step is the left-biased candidate scan -/

theorem backStep_eq_scanSpec (f : Nat → Int) (w prev : Nat) (hw : 1 ≤ w) (hp : prev < w) :
    backStep f w prev = scanSpec f w prev := by
  rcases Nat.eq_zero_or_pos prev with hp0 | hp1
  · subst hp0
    rcases Nat.lt_or_ge w 2 with hw1 | hw2
    · have e1 : min (w - 1) (0 + 1) = 0 := by omega
      have e2 : min (w - 1) 0 = 0 := by omega
      simp only [backStep, scanSpec, e1, e2, Nat.zero_sub, Nat.sub_self, List.range',
        lminF, List.foldl_nil, lt_self_iff_false, if_false]
    · have e1 : min (w - 1) (0 + 1) = 1 := by omega
      have e2 : min (w - 1) 0 = 0 := by omega
      simp only [backStep, scanSpec, e1, e2, Nat.zero_sub, Nat.sub_zero, List.range',
        lminF, List.foldl_cons, List.foldl_nil, lt_self_iff_false, if_false]
  · rcases Nat.lt_or_ge prev (w - 1) with hlt | hge
    · have e1 : min (w - 1) prev = prev := by omega
      have e2 : min (w - 1) (prev + 1) = prev + 1 := by omega
      have e3 : prev - 1 + 1 = prev := by omega
      have e4 : prev + 1 - (prev - 1) = 2 := by omega
      simp only [backStep, scanSpec, e1, e2, e3, e4, List.range', lminF,
        List.foldl_cons, List.foldl_nil]
    · have hpw : prev = w - 1 := by omega
      have e1 : min (w - 1) prev = prev := by omega
      have e2 : min (w - 1) (prev + 1) = prev := by omega
      have e3 : prev - 1 + 1 = prev := by omega
      have e4 : prev - (prev - 1) = 1 := by omega
      simp only [backStep, scanSpec, e1, e2, e3, e4, List.range', lminF,
        List.foldl_cons, List.foldl_nil]
      by_cases hb : f prev < f (prev - 1)
      · rw [if_pos hb, if_neg (lt_irrefl (f prev))]
      · rw [if_neg hb, if_neg hb]

/-- C5: the function `findVerticalSeam` breaks ties leftmost: the bottom entry is the
smallest index attaining the minimum of the last cost row, and each backtrack
entry is the result of checking the clamped candidates `prev-1`, `prev`,
`prev+1` in that order, replacing only on a strictly smaller cost. -/
theorem C5_leftmost_tie_break (g : Grid Int) (h w : Nat) (hh : 1 ≤ h) (hw : 1 ≤ w)
    (hrect : Rect g h w) :
    (∀ j, j < w →
        cost (EAt g) w (h - 1) ((findVerticalSeam g).getD (h - 1) 0) ≤
          cost (EAt g) w (h - 1) j) ∧
      (∀ j, j < w →
        cost (EAt g) w (h - 1) j ≤
            cost (EAt g) w (h - 1) ((findVerticalSeam g).getD (h - 1) 0) →
          (findVerticalSeam g).getD (h - 1) 0 ≤ j) ∧
      (∀ i, 1 ≤ i → i < h →
        (findVerticalSeam g).getD (i - 1) 0 =
          scanSpec (cost (EAt g) w (i - 1)) w ((findVerticalSeam g).getD i 0)) := by
  have hwidth := rect_width g h w hh hrect
  have hlen := hrect.1
  have hbot : (findVerticalSeam g).getD (h - 1) 0 =
      minIdxFrom (cost (EAt g) w (h - 1)) w := by
    rw [findVerticalSeam_getD g (h - 1) (by omega), hwidth, hlen, Nat.sub_self]
    rfl
  refine ⟨?_, ?_, ?_⟩
  · intro j hj
    rw [hbot]
    exact minIdxFrom_min _ w j hj
  · intro j hj hle
    rw [hbot] at hle ⊢
    by_contra hcon
    have hjlt : j < minIdxFrom (cost (EAt g) w (h - 1)) w := by omega
    have := minIdxFrom_leftmost (cost (EAt g) w (h - 1)) w j hjlt
    linarith
  · intro i hi1 hi2
    rw [findVerticalSeam_getD g (i - 1) (by omega), findVerticalSeam_getD g i (by omega),
      hwidth, hlen]
    have e1 : h - 1 - (i - 1) = (h - 1 - i) + 1 := by omega
    rw [e1]
    have hstep : seamIdx (EAt g) w h ((h - 1 - i) + 1) =
        backStep (cost (EAt g) w (h - 2 - (h - 1 - i))) w (seamIdx (EAt g) w h (h - 1 - i)) :=
      rfl
    rw [hstep, show h - 2 - (h - 1 - i) = i - 1 from by omega]
    exact backStep_eq_scanSpec _ w _ hw (seamIdx_lt (EAt g) w h hw _)

theorem C5_leftmost_tie_break_witness :
    (∀ j, j < 4 →
        cost (EAt egGrid) 4 (3 - 1) ((findVerticalSeam egGrid).getD (3 - 1) 0) ≤
          cost (EAt egGrid) 4 (3 - 1) j) ∧
      (∀ j, j < 4 →
        cost (EAt egGrid) 4 (3 - 1) j ≤
            cost (EAt egGrid) 4 (3 - 1) ((findVerticalSeam egGrid).getD (3 - 1) 0) →
          (findVerticalSeam egGrid).getD (3 - 1) 0 ≤ j) ∧
      (∀ i, 1 ≤ i → i < 3 →
        (findVerticalSeam egGrid).getD (i - 1) 0 =
          scanSpec (cost (EAt egGrid) 4 (i - 1)) 4 ((findVerticalSeam egGrid).getD i 0)) :=
  C5_leftmost_tie_break egGrid 3 4 (by decide) (by decide) (by decide)

/-! ### The main.cpp variant computes the same seam -/

theorem below2_eq (f : Nat → Int) (w j : Nat) : below2 f w j = below f w j := by
  simp only [below2, below]
  by_cases hc : j + 1 < w
  · rw [if_pos hc, if_pos (show j < w - 1 by omega)]
  · rw [if_neg hc, if_neg (show ¬j < w - 1 by omega)]

theorem costM_eq (E : Nat → Nat → Int) (w : Nat) : ∀ i j, costM E w i j = cost E w i j := by
  intro i
  induction i with
  | zero => intro j; rfl
  | succ i ih =>
    intro j
    have hfe : costM E w i = cost E w i := funext ih
    show E (i + 1) j + below2 (costM E w i) w j = E (i + 1) j + below (cost E w i) w j
    rw [hfe, below2_eq]

theorem lminF_congr (f g : Nat → Int) (l : List Nat) (init : Nat)
    (hfg : ∀ k, k = init ∨ k ∈ l → f k = g k) :
    lminF f l init = lminF g l init := by
  induction l generalizing init with
  | nil => rfl
  | cons a l ih =>
    rw [lminF_cons, lminF_cons]
    have ha : f a = g a := hfg a (Or.inr (List.mem_cons_self a l))
    have hi : f init = g init := hfg init (Or.inl rfl)
    rw [ha, hi]
    apply ih
    intro k hk
    rcases hk with hk | hk
    · by_cases hc : g a < g init
      · rw [if_pos hc] at hk
        rw [hk]
        exact hfg a (Or.inr (List.mem_cons_self a l))
      · rw [if_neg hc] at hk
        exact hfg k (Or.inl hk)
    · exact hfg k (Or.inr (List.mem_cons_of_mem a hk))

theorem minElementIdx_lastRow (g : Grid Int) (w h : Nat) (hw : 1 ≤ w) :
    minElementIdx (lastRowM g w h) = minIdxFrom (cost (EAt g) w (h - 1)) w := by
  have hlen : (lastRowM g w h).length = w := by simp [lastRowM]
  have hval : ∀ j, j < w → (lastRowM g w h).getD j 0 = cost (EAt g) w (h - 1) j := by
    intro j hj
    unfold lastRowM
    rw [getD_map_range _ _ _ _ hj, costM_eq]
  unfold minElementIdx minIdxFrom
  rw [hlen]
  apply lminF_congr
  intro k hk
  rcases hk with hk | hk
  · rw [hk]
    exact hval 0 (by omega)
  · have hb := mem_range'_bounds _ _ _ hk
    exact hval k (by omega)

theorem mainStep_eq_scanSpec (f : Nat → Int) (w prev : Nat) (hw : 1 ≤ w) (hp : prev < w) :
    mainStep f w prev = scanSpec f w prev := by
  rcases Nat.eq_zero_or_pos prev with hp0 | hp1
  · subst hp0
    rcases Nat.lt_or_ge w 2 with hw1 | hw2
    · have hw1e : w = 1 := by omega
      subst hw1e
      simp [mainStep, scanSpec]
    · have e1 : min (w - 1) (0 + 1) = 1 := by omega
      have e2 : min (w - 1) 0 = 0 := by omega
      have e3 : (0 + 1 < w) = True := eq_true (by omega)
      simp only [mainStep, scanSpec, e1, e2, e3, Nat.zero_sub, lt_self_iff_false,
        false_and, if_false, true_and]
  · have e0 : (0 < prev) = True := eq_true hp1
    rcases Nat.lt_or_ge prev (w - 1) with hlt | hge
    · have e1 : min (w - 1) prev = prev := by omega
      have e2 : min (w - 1) (prev + 1) = prev + 1 := by omega
      have e3 : (prev + 1 < w) = True := eq_true (by omega)
      simp only [mainStep, scanSpec, e0, e1, e2, e3, true_and]
      by_cases hb : f prev < f (prev - 1)
      · rw [if_neg (not_le.mpr hb), if_pos hb]
      · rw [if_pos (not_lt.mp hb), if_neg hb]
    · have e1 : min (w - 1) prev = prev := by omega
      have e2 : min (w - 1) (prev + 1) = prev := by omega
      have e3 : (prev + 1 < w) = False := eq_false (by omega)
      simp only [mainStep, scanSpec, e0, e1, e2, e3, true_and, false_and, if_false]
      by_cases hb : f prev < f (prev - 1)
      · rw [if_neg (not_le.mpr hb), if_pos hb, if_neg (lt_irrefl (f prev))]
      · rw [if_pos (not_lt.mp hb), if_neg hb, if_neg hb]

theorem mainStep_eq_backStep (f : Nat → Int) (w prev : Nat) (hw : 1 ≤ w) (hp : prev < w) :
    mainStep f w prev = backStep f w prev := by
  rw [mainStep_eq_scanSpec f w prev hw hp, backStep_eq_scanSpec f w prev hw hp]

theorem seamIdxMain_eq (g : Grid Int) (w h : Nat) (hw : 1 ≤ w) :
    ∀ k, seamIdxMain g w h k = seamIdx (EAt g) w h k := by
  intro k
  induction k with
  | zero =>
    show minElementIdx (lastRowM g w h) = _
    rw [minElementIdx_lastRow g w h hw]
    rfl
  | succ k ih =>
    show mainStep (costM (EAt g) w (h - 2 - k)) w (seamIdxMain g w h k) = _
    rw [funext (costM_eq (EAt g) w (h - 2 - k)), ih,
      mainStep_eq_backStep _ w _ hw (seamIdx_lt (EAt g) w h hw k)]
    rfl

theorem findMinVerticalSeam_eq (g : Grid Int) (hw : 1 ≤ (g.getD 0 []).length) :
    findMinVerticalSeam g = findVerticalSeam g := by
  unfold findMinVerticalSeam findVerticalSeam
  apply List.map_congr_left
  intro i _
  exact seamIdxMain_eq g _ _ hw _

/-- C6 counterexample to the claimed divergence: no non-empty rectangular
energy map makes `findMinVerticalSeam` (main.cpp) and `findVerticalSeam`
(SeamCarver.cpp) return different seams. -/
theorem C6_variants_never_differ :
    ¬∃ g : Grid Int, ∃ h w : Nat, 1 ≤ h ∧ 1 ≤ w ∧ Rect g h w ∧
      findMinVerticalSeam g ≠ findVerticalSeam g := by
  rintro ⟨g, h, w, hh, hw, hrect, hne⟩
  exact hne (findMinVerticalSeam_eq g (by rw [rect_width g h w hh hrect]; exact hw))

/-- C6 (amended): on every non-empty rectangular energy map the two
backtracking variants agree, returning the same seam. -/
theorem C6_variants_agree (g : Grid Int) (h w : Nat) (hh : 1 ≤ h) (hw : 1 ≤ w)
    (hrect : Rect g h w) : findMinVerticalSeam g = findVerticalSeam g :=
  findMinVerticalSeam_eq g (by rw [rect_width g h w hh hrect]; exact hw)

theorem C6_variants_agree_witness : findMinVerticalSeam egGrid = findVerticalSeam egGrid :=
  C6_variants_agree egGrid 3 4 (by decide) (by decide) (by decide)

/-! ### The energy map: dimensions, formula, non-negativity -/

/-- The spec's energy formula at `(r, c)`: the sum, over the up-to-4
axis-aligned neighbors that exist, of the absolute difference of gray
intensities. -/
def specEnergy (img : Image) (r c : Nat) : Int :=
  (((if 0 < r then [(r - 1, c)] else []) ++ (if r + 1 < img.height then [(r + 1, c)] else []) ++
      (if 0 < c then [(r, c - 1)] else []) ++
        (if c + 1 < img.width then [(r, c + 1)] else [])).map
    fun p => |img.grayValue r c - img.grayValue p.1 p.2|).sum

theorem energyAt_eq_specEnergy (img : Image) (r c : Nat) :
    energyAt img r c = specEnergy img r c := by
  have hr : (r < img.height - 1) ↔ (r + 1 < img.height) := by omega
  have hc : (c < img.width - 1) ↔ (c + 1 < img.width) := by omega
  simp only [energyAt, specEnergy]
  by_cases h1 : 0 < r <;> by_cases h2 : r + 1 < img.height <;>
    by_cases h3 : 0 < c <;> by_cases h4 : c + 1 < img.width <;>
      simp [h1, h2, h3, h4, hr, hc] <;> ring

theorem energyAt_nonneg (img : Image) (r c : Nat) : 0 ≤ energyAt img r c := by
  simp only [energyAt]
  split_ifs <;> positivity

theorem computeEnergy_entry (img : Image) (r c : Nat) (hr : r < img.height)
    (hc : c < img.width) : gget (computeEnergy img) 0 r c = energyAt img r c := by
  unfold gget computeEnergy
  rw [getD_map_range _ _ _ _ hr, getD_map_range _ _ _ _ hc]

/-- C3: the map `computeEnergy` returns a map of the same height and width whose
`(r, c)` entry is the sum, over the up-to-4 existing axis-aligned neighbors,
of the absolute gray-intensity difference with that neighbor (gray of a color
pixel being the truncating average of its channels); every entry is `≥ 0`. -/
theorem C3_energy_formula (img : Image) :
    Rect (computeEnergy img) img.height img.width ∧
      ∀ r, r < img.height → ∀ c, c < img.width →
        gget (computeEnergy img) 0 r c = specEnergy img r c ∧
          0 ≤ gget (computeEnergy img) 0 r c := by
  refine ⟨⟨by simp [computeEnergy], ?_⟩, ?_⟩
  · intro row hrow
    simp only [computeEnergy, List.mem_map] at hrow
    obtain ⟨i, _, hi⟩ := hrow
    rw [← hi]
    simp
  · intro r hr c hc
    rw [computeEnergy_entry img r c hr hc, energyAt_eq_specEnergy]
    exact ⟨rfl, by rw [← energyAt_eq_specEnergy]; exact energyAt_nonneg img r c⟩

/-- Sample grayscale and color images for the witnesses. -/
def egImg : Image :=
  { width := 3, height := 2, isColor := false, gray := [[1, 5, 2], [3, 3, 3]], color := [] }

def egImgC : Image :=
  { width := 2, height := 2, isColor := true, gray := [],
    color := [[(1, 2, 3), (7, 8, 9)], [(0, 0, 1), (5, 5, 5)]] }

theorem C3_energy_formula_witness :
    Rect (computeEnergy egImgC) 2 2 ∧ gget (computeEnergy egImgC) 0 0 1 = specEnergy egImgC 0 1 ∧
      0 ≤ gget (computeEnergy egImgC) 0 0 1 :=
  ⟨(C3_energy_formula egImgC).1, ((C3_energy_formula egImgC).2 0 (by decide) 1 (by decide)).1,
    ((C3_energy_formula egImgC).2 0 (by decide) 1 (by decide)).2⟩

/-! ### Removing a seam -/

theorem eraseIdx_getD (l : List α) (d : α) (s j : Nat) (hs : s < l.length)
    (hj : j < l.length - 1) :
    (l.eraseIdx s).getD j d = if j < s then l.getD j d else l.getD (j + 1) d := by
  have hlen : (l.eraseIdx s).length = l.length - 1 := List.length_eraseIdx_of_lt hs
  have hjl : j < (l.eraseIdx s).length := by omega
  rw [List.getD_eq_getElem _ _ hjl, List.getElem_eraseIdx]
  split_ifs with hcmp
  · rw [List.getD_eq_getElem _ _ (by omega)]
  · rw [List.getD_eq_getElem _ _ (by omega)]

theorem removeSeamG_spec (d : α) (h w : Nat) (g : Grid α) (s : List Nat)
    (hrect : Rect g h w) (hsb : ∀ i, i < h → s.getD i 0 < w) (i : Nat) (hi : i < h) :
    (removeSeamG h g s).getD i [] = (g.getD i []).eraseIdx (s.getD i 0) ∧
      ((removeSeamG h g s).getD i []).length = w - 1 ∧
      ∀ j, j < w - 1 →
        gget (removeSeamG h g s) d i j =
          if j < s.getD i 0 then gget g d i j else gget g d i (j + 1) := by
  have hig : i < g.length := by rw [hrect.1]; exact hi
  have hrowlen : (g.getD i []).length = w := by
    rw [List.getD_eq_getElem _ _ hig]
    exact hrect.2 _ (List.getElem_mem hig)
  have hrow : (removeSeamG h g s).getD i [] = (g.getD i []).eraseIdx (s.getD i 0) :=
    getD_map_range _ _ _ _ hi
  refine ⟨hrow, ?_, ?_⟩
  · rw [hrow, List.length_eraseIdx_of_lt (by rw [hrowlen]; exact hsb i hi), hrowlen]
  · intro j hj
    unfold gget
    rw [hrow, eraseIdx_getD _ _ _ _ (by rw [hrowlen]; exact hsb i hi) (by omega)]

/-- C4: for a well-formed grid of width `> 1` and an in-bounds seam of length
`height`, `removeSeam` decreases the width by exactly one, keeps the height,
and each remaining row is the old row with the entry at the seam's column
deleted and later entries shifted one place left. -/
theorem C4_removeSeam (img : Image) (s : List Nat) (hw : 1 < img.width)
    (hwf : WfActive img) (hslen : s.length = img.height)
    (hsb : ∀ i, i < img.height → s.getD i 0 < img.width) :
    (img.removeSeam s).width = img.width - 1 ∧
      (img.removeSeam s).height = img.height ∧
      (img.isColor = false →
        ∀ i, i < img.height →
          (img.removeSeam s).gray.getD i [] = (img.gray.getD i []).eraseIdx (s.getD i 0) ∧
            ((img.removeSeam s).gray.getD i []).length = img.width - 1 ∧
            ∀ j, j < img.width - 1 →
              gget (img.removeSeam s).gray 0 i j =
                if j < s.getD i 0 then gget img.gray 0 i j else gget img.gray 0 i (j + 1)) ∧
      (img.isColor = true →
        ∀ i, i < img.height →
          (img.removeSeam s).color.getD i [] = (img.color.getD i []).eraseIdx (s.getD i 0) ∧
            ((img.removeSeam s).color.getD i []).length = img.width - 1 ∧
            ∀ j, j < img.width - 1 →
              gget (img.removeSeam s).color (0, 0, 0) i j =
                if j < s.getD i 0 then gget img.color (0, 0, 0) i j
                else gget img.color (0, 0, 0) i (j + 1)) := by
  refine ⟨rfl, rfl, ?_, ?_⟩
  · intro hcol i hi
    have hrect : Rect img.gray img.height img.width := by
      unfold WfActive at hwf
      rw [hcol] at hwf
      simpa using hwf
    have hgrid : (img.removeSeam s).gray = removeSeamG img.height img.gray s := by
      simp [Image.removeSeam, hcol]
    rw [hgrid]
    exact removeSeamG_spec 0 img.height img.width img.gray s hrect hsb i hi
  · intro hcol i hi
    have hrect : Rect img.color img.height img.width := by
      unfold WfActive at hwf
      rw [hcol] at hwf
      simpa using hwf
    have hgrid : (img.removeSeam s).color = removeSeamG img.height img.color s := by
      simp [Image.removeSeam, hcol]
    rw [hgrid]
    exact removeSeamG_spec (0, 0, 0) img.height img.width img.color s hrect hsb i hi

theorem C4_removeSeam_witness :
    (egImg.removeSeam [1, 0]).width = 2 ∧ (egImg.removeSeam [1, 0]).height = 2 ∧
      (egImg.removeSeam [1, 0]).gray.getD 0 [] = [1, 2] :=
  ⟨(C4_removeSeam egImg [1, 0] (by decide) (by decide) (by decide) (by decide)).1,
    (C4_removeSeam egImg [1, 0] (by decide) (by decide) (by decide) (by decide)).2.1,
    by
      have hb := ((C4_removeSeam egImg [1, 0] (by decide) (by decide) (by decide)
        (by decide)).2.2.1 rfl 0 (by decide)).1
      rw [hb]
      decide⟩

/-! ### Transposition -/

theorem gget_transposeG (h w : Nat) (g : Grid α) (d : α) (i j : Nat) (hi : i < w)
    (hj : j < h) : gget (transposeG h w g d) d i j = gget g d j i := by
  unfold gget transposeG
  rw [getD_map_range _ _ _ _ hi, getD_map_range _ _ _ _ hj]
  rfl

theorem grid_eta (g : Grid α) (d : α) (h w : Nat) (hrect : Rect g h w) :
    ((List.range h).map fun i => (List.range w).map fun j => gget g d i j) = g := by
  apply List.ext_getElem
  · simp [hrect.1]
  · intro i hi1 hi2
    rw [List.getElem_map, List.getElem_range]
    apply List.ext_getElem
    · simp only [List.length_map, List.length_range]
      exact (hrect.2 _ (List.getElem_mem hi2)).symm
    · intro j hj1 hj2
      rw [List.getElem_map, List.getElem_range]
      unfold gget
      rw [List.getD_eq_getElem _ _ hi2, List.getD_eq_getElem _ _ hj2]

theorem transposeG_transposeG (g : Grid α) (d : α) (h w : Nat) (hrect : Rect g h w) :
    transposeG w h (transposeG h w g d) d = g := by
  have hte : transposeG w h (transposeG h w g d) d =
      (List.range h).map fun i => (List.range w).map fun j =>
        gget (transposeG h w g d) d j i := rfl
  rw [hte]
  have hcong : ((List.range h).map fun i => (List.range w).map fun j =>
      gget (transposeG h w g d) d j i) =
      (List.range h).map fun i => (List.range w).map fun j => gget g d i j := by
    apply List.map_congr_left
    intro i hi
    apply List.map_congr_left
    intro j hj
    exact gget_transposeG h w g d j i (List.mem_range.mp hj) (List.mem_range.mp hi)
  rw [hcong]
  exact grid_eta g d h w hrect

/-- C7: for every well-formed image, `transpose` exchanges the dimensions,
maps the pixel at `(r, c)` to `(c, r)`, and is an involution. -/
theorem C7_transpose_involutive (img : Image) (hwf : WfActive img) :
    img.transpose.transpose = img ∧ img.transpose.width = img.height ∧
      img.transpose.height = img.width ∧
      (img.isColor = false → ∀ r, r < img.height → ∀ c, c < img.width →
        gget img.transpose.gray 0 c r = gget img.gray 0 r c) ∧
      (img.isColor = true → ∀ r, r < img.height → ∀ c, c < img.width →
        gget img.transpose.color (0, 0, 0) c r = gget img.color (0, 0, 0) r c) := by
  unfold WfActive at hwf
  refine ⟨?_, rfl, rfl, ?_, ?_⟩
  · cases hcol : img.isColor with
    | false =>
      rw [hcol] at hwf
      simp only [Bool.false_eq_true, if_false] at hwf
      simp only [Image.transpose, hcol, Bool.false_eq_true, if_false]
      rw [transposeG_transposeG img.gray 0 img.height img.width hwf]
      exact Image.ext rfl rfl hcol.symm rfl rfl
    | true =>
      rw [hcol] at hwf
      simp only [if_true] at hwf
      simp only [Image.transpose, hcol, if_true]
      rw [transposeG_transposeG img.color (0, 0, 0) img.height img.width hwf]
      exact Image.ext rfl rfl hcol.symm rfl rfl
  · intro hcol r hr c hc
    simp only [Image.transpose, hcol, Bool.false_eq_true, if_false]
    exact gget_transposeG img.height img.width img.gray 0 c r hc hr
  · intro hcol r hr c hc
    simp only [Image.transpose, hcol, if_true]
    exact gget_transposeG img.height img.width img.color (0, 0, 0) c r hc hr

theorem C7_transpose_involutive_witness : egImgC.transpose.transpose = egImgC :=
  (C7_transpose_involutive egImgC (by decide)).1

/-! ### Energy computation commutes with transposition -/

theorem energyAt_norm (img : Image) (i j : Nat) :
    energyAt img i j =
      (if 0 < i then |img.grayValue i j - img.grayValue (i - 1) j| else 0) +
        (if i < img.height - 1 then |img.grayValue i j - img.grayValue (i + 1) j| else 0) +
        (if 0 < j then |img.grayValue i j - img.grayValue i (j - 1)| else 0) +
        (if j < img.width - 1 then |img.grayValue i j - img.grayValue i (j + 1)| else 0) := by
  simp only [energyAt]
  split_ifs <;> ring

theorem grayValue_transpose (img : Image) (r c : Nat) (hr : r < img.height)
    (hc : c < img.width) : img.transpose.grayValue c r = img.grayValue r c := by
  unfold Image.grayValue
  cases hcol : img.isColor with
  | false =>
    simp only [Image.transpose, hcol, Bool.false_eq_true, if_false]
    exact congrArg id (gget_transposeG img.height img.width img.gray 0 c r hc hr)
  | true =>
    simp only [Image.transpose, hcol, if_true]
    rw [gget_transposeG img.height img.width img.color (0, 0, 0) c r hc hr]

theorem energyAt_transpose (img : Image) (a b : Nat) (ha : a < img.width)
    (hb : b < img.height) : energyAt img.transpose a b = energyAt img b a := by
  have e1 : img.transpose.height = img.width := rfl
  have e2 : img.transpose.width = img.height := rfl
  rw [energyAt_norm, energyAt_norm, e1, e2]
  have g0 : img.transpose.grayValue a b = img.grayValue b a := grayValue_transpose img b a hb ha
  have t1 : (if 0 < a then |img.transpose.grayValue a b - img.transpose.grayValue (a - 1) b|
        else 0) =
      (if 0 < a then |img.grayValue b a - img.grayValue b (a - 1)| else 0) := by
    by_cases h : 0 < a
    · rw [if_pos h, if_pos h, g0, grayValue_transpose img b (a - 1) hb (by omega)]
    · rw [if_neg h, if_neg h]
  have t2 : (if a < img.width - 1 then
        |img.transpose.grayValue a b - img.transpose.grayValue (a + 1) b| else 0) =
      (if a < img.width - 1 then |img.grayValue b a - img.grayValue b (a + 1)| else 0) := by
    by_cases h : a < img.width - 1
    · rw [if_pos h, if_pos h, g0, grayValue_transpose img b (a + 1) hb (by omega)]
    · rw [if_neg h, if_neg h]
  have t3 : (if 0 < b then |img.transpose.grayValue a b - img.transpose.grayValue a (b - 1)|
        else 0) =
      (if 0 < b then |img.grayValue b a - img.grayValue (b - 1) a| else 0) := by
    by_cases h : 0 < b
    · rw [if_pos h, if_pos h, g0, grayValue_transpose img (b - 1) a (by omega) ha]
    · rw [if_neg h, if_neg h]
  have t4 : (if b < img.height - 1 then
        |img.transpose.grayValue a b - img.transpose.grayValue a (b + 1)| else 0) =
      (if b < img.height - 1 then |img.grayValue b a - img.grayValue (b + 1) a| else 0) := by
    by_cases h : b < img.height - 1
    · rw [if_pos h, if_pos h, g0, grayValue_transpose img (b + 1) a (by omega) ha]
    · rw [if_neg h, if_neg h]
  rw [t1, t2, t3, t4]
  ring

/-- C9: energy computation commutes with transposition: the energy map of the
transposed image is the transpose of the energy map of the image. -/
theorem C9_energy_transpose (img : Image) :
    computeEnergy img.transpose = transposeG img.height img.width (computeEnergy img) 0 := by
  have hL : computeEnergy img.transpose =
      (List.range img.width).map fun a => (List.range img.height).map fun b =>
        energyAt img.transpose a b := rfl
  have hR : transposeG img.height img.width (computeEnergy img) 0 =
      (List.range img.width).map fun a => (List.range img.height).map fun b =>
        gget (computeEnergy img) 0 b a := rfl
  rw [hL, hR]
  apply List.map_congr_left
  intro a hamem
  apply List.map_congr_left
  intro b hbmem
  have ha := List.mem_range.mp hamem
  have hb := List.mem_range.mp hbmem
  rw [energyAt_transpose img a b ha hb, computeEnergy_entry img b a hb ha]

/-! ### The horizontal-seam loop -/

theorem removeHorizontalSeams_iterate (m : Nat) :
    ∀ img, removeHorizontalSeams m img =
      (fun g => Image.transpose (removeVerticalSeams 1 (Image.transpose g)))^[m] img := by
  induction m with
  | zero => intro img; rfl
  | succ m ih =>
    intro img
    rw [Function.iterate_succ_apply]
    exact ih _

theorem removeHorizontalSeams_dims (m : Nat) :
    ∀ img, (removeHorizontalSeams m img).height = img.height - m ∧
      (removeHorizontalSeams m img).width = img.width := by
  induction m with
  | zero => intro img; exact ⟨by simp [removeHorizontalSeams], rfl⟩
  | succ m ih =>
    intro img
    have hstep : removeHorizontalSeams (m + 1) img =
        removeHorizontalSeams m (Image.transpose (removeVerticalSeams 1 (Image.transpose img))) :=
      rfl
    obtain ⟨h1, h2⟩ := ih (Image.transpose (removeVerticalSeams 1 (Image.transpose img)))
    have e1 : (Image.transpose (removeVerticalSeams 1 (Image.transpose img))).height =
        img.height - 1 := rfl
    have e2 : (Image.transpose (removeVerticalSeams 1 (Image.transpose img))).width =
        img.width := rfl
    rw [e1] at h1
    rw [e2] at h2
    rw [hstep, h1, h2]
    exact ⟨by omega, rfl⟩

/-- C8: loop structure: `removeHorizontalSeams m` is exactly `m` repetitions of
transpose / remove one vertical seam / transpose; both zero-count loops leave
the image unchanged; one repetition on an image of positive height decreases
the height by exactly one and keeps the width; `m ≤ height` repetitions
decrease the height by exactly `m` and keep the width. -/
theorem C8_removeHorizontal_structure (img : Image) (m : Nat) :
    removeHorizontalSeams m img =
        (fun g => Image.transpose (removeVerticalSeams 1 (Image.transpose g)))^[m] img ∧
      removeHorizontalSeams 0 img = img ∧ removeVerticalSeams 0 img = img ∧
      (1 ≤ img.height →
        (Image.transpose (removeVerticalSeams 1 (Image.transpose img))).height =
            img.height - 1 ∧
          (Image.transpose (removeVerticalSeams 1 (Image.transpose img))).width = img.width) ∧
      (m ≤ img.height →
        (removeHorizontalSeams m img).height = img.height - m ∧
          (removeHorizontalSeams m img).width = img.width) := by
  refine ⟨removeHorizontalSeams_iterate m img, rfl, rfl, fun _ => ⟨rfl, rfl⟩,
    fun _ => removeHorizontalSeams_dims m img⟩

theorem C8_removeHorizontal_structure_witness :
    removeHorizontalSeams 1 egImg =
        (fun g => Image.transpose (removeVerticalSeams 1 (Image.transpose g)))^[1] egImg ∧
      (removeHorizontalSeams 1 egImg).height = 1 ∧
      (removeHorizontalSeams 1 egImg).width = 3 :=
  ⟨(C8_removeHorizontal_structure egImg 1).1,
    ((C8_removeHorizontal_structure egImg 1).2.2.2.2 (by decide)).1,
    ((C8_removeHorizontal_structure egImg 1).2.2.2.2 (by decide)).2⟩

/-! ### The checked embedding: every read of `findVerticalSeam` is in bounds -/

theorem get2?_eq (g : Grid α) (d : α) (h w : Nat) (hrect : Rect g h w) (i j : Nat)
    (hi : i < h) (hj : j < w) : get2? g i j = some (gget g d i j) := by
  have hig : i < g.length := by rw [hrect.1]; exact hi
  have hrow : (g.getD i []).length = w := by
    rw [List.getD_eq_getElem _ _ hig]
    exact hrect.2 _ (List.getElem_mem hig)
  have hjr : j < (g.getD i []).length := by omega
  unfold get2? gget
  rw [List.get?_eq_getElem?, List.getElem?_eq_getElem hig, ← List.getD_eq_getElem g [] hig]
  show (g.getD i []).get? j = some ((g.getD i []).getD j d)
  rw [List.get?_eq_getElem?, List.getElem?_eq_getElem hjr, List.getD_eq_getElem _ _ hjr]

theorem below?_eq (f? : Nat → Option Int) (f : Nat → Int) (w j : Nat)
    (hf : ∀ k, k < w → f? k = some (f k)) (hj : j < w) :
    below? f? w j = some (below f w j) := by
  have hfj := hf j hj
  by_cases h0 : 0 < j <;> by_cases h1 : j < w - 1
  · have hfm := hf (j - 1) (by omega)
    have hfp := hf (j + 1) (by omega)
    simp [below?, below, hfj, hfm, hfp, h0, h1]
  · have hfm := hf (j - 1) (by omega)
    simp [below?, below, hfj, hfm, h0, h1]
  · have hfp := hf (j + 1) (by omega)
    simp [below?, below, hfj, hfp, h0, h1]
  · simp [below?, below, hfj, h0, h1]

theorem cost?_eq (g : Grid Int) (h w : Nat) (hrect : Rect g h w) :
    ∀ i, i < h → ∀ j, j < w → cost? g w i j = some (cost (EAt g) w i j) := by
  intro i
  induction i with
  | zero =>
    intro _ j hj
    exact get2?_eq g 0 h w hrect 0 j (by omega) hj
  | succ i ih =>
    intro hi j hj
    have hg := get2?_eq g 0 h w hrect (i + 1) j hi hj
    have hb := below?_eq (cost? g w i) (cost (EAt g) w i) w j
      (fun k hk => ih (by omega) k hk) hj
    show (get2? g (i + 1) j).bind _ = _
    rw [hg]
    simp only [Option.some_bind]
    rw [hb]
    simp only [Option.map_some']
    rfl

theorem Mmat_rect (g : Grid Int) (w h : Nat) : Rect (Mmat g w h) h w := by
  constructor
  · simp [Mmat]
  · intro row hrow
    simp only [Mmat, List.mem_map] at hrow
    obtain ⟨i, _, hi⟩ := hrow
    rw [← hi]
    simp

theorem gget_Mmat (g : Grid Int) (w h i j : Nat) (hi : i < h) (hj : j < w) :
    gget (Mmat g w h) 0 i j = cost (EAt g) w i j := by
  unfold gget Mmat
  rw [getD_map_range _ _ _ _ hi, getD_map_range _ _ _ _ hj]

theorem mapM_eq_some_map (F : α → Option β) (f : α → β) :
    ∀ l : List α, (∀ a ∈ l, F a = some (f a)) → l.mapM F = some (l.map f) := by
  intro l
  induction l with
  | nil => intro _; rfl
  | cons a l ih =>
    intro hl
    have ha := hl a (List.mem_cons_self a l)
    have hrest := ih fun x hx => hl x (List.mem_cons_of_mem a hx)
    rw [List.mapM_cons, ha]
    simp only [Option.pure_def, Option.bind_eq_bind, Option.some_bind]
    rw [hrest]
    simp only [Option.some_bind]
    rfl

theorem MmatChecked_eq (g : Grid Int) (h w : Nat) (hrect : Rect g h w) :
    MmatChecked g w h = some (Mmat g w h) := by
  unfold MmatChecked Mmat
  apply mapM_eq_some_map
  intro i hi
  apply mapM_eq_some_map
  intro j hj
  exact cost?_eq g h w hrect i (List.mem_range.mp hi) j (List.mem_range.mp hj)

theorem lminF?_eq (f? : Nat → Option Int) (f : Nat → Int) :
    ∀ (l : List Nat) (init : Nat), (∀ k, k = init ∨ k ∈ l → f? k = some (f k)) →
      lminF? f? l init = some (lminF f l init) := by
  intro l
  induction l with
  | nil => intro init _; rfl
  | cons a l ih =>
    intro init hf
    have ha := hf a (Or.inr (List.mem_cons_self a l))
    have hi := hf init (Or.inl rfl)
    have hcons : lminF? f? (a :: l) init =
        ((f? a).bind fun x => (f? init).map fun y => if x < y then a else init).bind
          fun mj => lminF? f? l mj := by
      unfold lminF?
      rw [List.foldlM_cons]
      rfl
    rw [hcons, ha]
    simp only [Option.some_bind]
    rw [hi]
    simp only [Option.map_some', Option.some_bind]
    rw [lminF_cons]
    apply ih
    intro k hk
    rcases hk with hk | hk
    · by_cases hc : f a < f init
      · rw [if_pos hc] at hk
        rw [hk]
        exact ha
      · rw [if_neg hc] at hk
        rw [hk]
        exact hi
    · exact hf k (Or.inr (List.mem_cons_of_mem a hk))

theorem seamIdx?_eq (g : Grid Int) (h w : Nat) (hrect : Rect g h w) (hh : 1 ≤ h)
    (hw : 1 ≤ w) :
    ∀ k, k ≤ h - 1 → seamIdx? (Mmat g w h) w h k = some (seamIdx (EAt g) w h k) := by
  intro k
  induction k with
  | zero =>
    intro _
    show lminF? (fun j => get2? (Mmat g w h) (h - 1) j) (List.range' 1 (w - 1)) 0 = _
    rw [lminF?_eq (fun j => get2? (Mmat g w h) (h - 1) j) (cost (EAt g) w (h - 1))
      (List.range' 1 (w - 1)) 0 ?hbound]
    case hbound =>
      intro j hj
      have hjw : j < w := by
        rcases hj with hj | hj
        · omega
        · have := mem_range'_bounds _ _ _ hj
          omega
      show get2? (Mmat g w h) (h - 1) j = some (cost (EAt g) w (h - 1) j)
      rw [get2?_eq (Mmat g w h) 0 h w (Mmat_rect g w h) (h - 1) j (by omega) hjw,
        gget_Mmat g w h _ j (by omega) hjw]
    rfl
  | succ k ih =>
    intro hk
    have hks := ih (by omega)
    have hprev : seamIdx (EAt g) w h k < w := seamIdx_lt (EAt g) w h hw k
    show (seamIdx? (Mmat g w h) w h k).bind _ = _
    rw [hks]
    simp only [Option.some_bind]
    rw [lminF?_eq (fun j => get2? (Mmat g w h) (h - 2 - k) j) (cost (EAt g) w (h - 2 - k))
      (List.range' (seamIdx (EAt g) w h k - 1 + 1)
        (min (w - 1) (seamIdx (EAt g) w h k + 1) - (seamIdx (EAt g) w h k - 1)))
      (seamIdx (EAt g) w h k - 1) ?hbound2]
    case hbound2 =>
      intro j hj
      have hjw : j < w := by
        rcases hj with hj | hj
        · omega
        · have := mem_range'_bounds _ _ _ hj
          omega
      show get2? (Mmat g w h) (h - 2 - k) j = some (cost (EAt g) w (h - 2 - k) j)
      rw [get2?_eq (Mmat g w h) 0 h w (Mmat_rect g w h) (h - 2 - k) j (by omega) hjw,
        gget_Mmat g w h _ j (by omega) hjw]
    rfl

/-- C10: on a non-empty rectangular energy map, every read of the energy map
and of the cost matrix performed by `findVerticalSeam` is in bounds: the fully
bounds-checked variant succeeds and returns the very same seam. -/
theorem C10_no_out_of_bounds (g : Grid Int) (h w : Nat) (hh : 1 ≤ h) (hw : 1 ≤ w)
    (hrect : Rect g h w) : findVerticalSeamChecked g = some (findVerticalSeam g) := by
  have hwidth := rect_width g h w hh hrect
  show (MmatChecked g (g.getD 0 []).length g.length).bind
      (fun M => (List.range g.length).mapM fun i =>
        seamIdx? M (g.getD 0 []).length g.length (g.length - 1 - i)) =
    some ((List.range g.length).map fun i =>
      seamIdx (EAt g) (g.getD 0 []).length g.length (g.length - 1 - i))
  rw [hwidth, hrect.1, MmatChecked_eq g h w hrect]
  simp only [Option.some_bind]
  apply mapM_eq_some_map
  intro i hi
  exact seamIdx?_eq g h w hrect hh hw (h - 1 - i) (by omega)

theorem C10_no_out_of_bounds_witness :
    findVerticalSeamChecked egGrid = some (findVerticalSeam egGrid) :=
  C10_no_out_of_bounds egGrid 3 4 (by decide) (by decide) (by decide)

end SeamCarving
